import Mathlib

/-!
Verification of the MoZuku Japanese proofreading server core
(`mozuku-rs`): a shallow embedding of the tokenizer adapter
(`analyzer.rs`), the grammar rule engine (`checker.rs`), the prose-span
extractor (`extractor.rs`) and the diagnostics projector (`server.rs`),
together with proofs about their behaviour.

Strings are modelled as `List Char` (one element per Unicode code
point), matching Rust `&str` viewed through `chars()`; byte lengths are
recovered with `Char.utf8Size`.
-/

namespace Mozuku

/-- A document or fragment of text: one `Char` per code point. -/
abbrev Str := List Char

/-- UTF-8 byte length of a text, mirroring Rust `str::len`. -/
def byteLen (t : Str) : Nat := (t.map Char.utf8Size).sum

/-- Split a text on a separator character, keeping empty pieces, as Rust
`str::split(char)` does.  The result is always non-empty. -/
def splitOnChar (sep : Char) : Str → List Str
  | [] => [[]]
  | c :: rest =>
      if c = sep then [] :: splitOnChar sep rest
      else
        match splitOnChar sep rest with
        | [] => [[c]]
        | piece :: pieces => (c :: piece) :: pieces

/-- Remove one trailing carriage return, used when a chunk was terminated
by a line feed (Rust `str::lines` treats `\r\n` as one line ending). -/
def stripCr (l : Str) : Str :=
  if l.getLast? = some '\r' then l.dropLast else l

/-- Strip a trailing `\r` from every chunk except the final one (only
non-final chunks were terminated by a `\n` in the original text). -/
def stripCrChunks : List Str → List Str
  | [] => []
  | l :: rest => (if rest = [] then l else stripCr l) :: stripCrChunks rest

/-- Drop the final piece of a split when it is empty (so a trailing
newline does not produce an extra empty line, and the empty text has no
lines). -/
def dropTrailingEmpty (p : List Str) : List Str :=
  if p.getLast? = some [] then p.dropLast else p

/-- Rust `str::lines()`: split on `\n`, treat `\r\n` as one separator,
and drop a final empty piece. -/
def linesOf (t : Str) : List Str :=
  dropTrailingEmpty (stripCrChunks (splitOnChar '\n' t))

/-- Loop of `char_offset_to_position` (identical in `checker.rs` and
`analyzer.rs`): walk the lines, counting each line's code points plus one
for its newline, until the line containing the offset is found; fall
through to `(0, 0)`. -/
def cpGo : List Str → Nat → Nat → Nat → Nat × Nat
  | [], _, _, _ => (0, 0)
  | l :: rest, off, cur, lineNum =>
      if off ≤ cur + l.length then (lineNum, off - cur)
      else cpGo rest off (cur + l.length + 1) (lineNum + 1)

/-- `GrammarChecker::char_offset_to_position` /
`MorphologicalAnalyzer::char_offset_to_position`: convert a character
offset to a zero-indexed `(line, column)` pair over the given lines. -/
def charOffsetToPosition (lines : List Str) (charOffset : Nat) : Nat × Nat :=
  cpGo lines charOffset 0 0

/-- Modelled from the spec: the `(line, column)` of the end of text — the
line index is the number of newline characters and the column is the
number of code points after the last newline (`char_offset_to_position`'s
own coordinate convention applied to the final cursor position). -/
def endOfTextPos : Str → Nat × Nat
  | [] => (0, 0)
  | c :: rest =>
      let p := endOfTextPos rest
      if c = '\n' then (p.1 + 1, p.2)
      else if p.1 = 0 then (p.1, p.2 + 1) else p

/-- Number of characters the loop of `char_offset_to_position` accounts
for over a list of lines: each line plus one separator. -/
def lineSpan (ls : List Str) : Nat := (ls.map (fun l => l.length + 1)).sum

/-- Token record produced by `MorphologicalAnalyzer::tokenize`
(`analyzer.rs`, `struct TokenInfo`). -/
structure TokenInfo where
  surface : Str
  pos : Str
  pos_detail1 : Str
  pos_detail2 : Str
  pos_detail3 : Str
  conjugation_type : Str
  conjugation_form : Str
  base_form : Str
  reading : Str
  pronunciation : Str
  byte_offset : Nat
  char_offset : Nat
  char_length : Nat
deriving DecidableEq

/-- Default token used to read a list at an index that is in range. -/
def defaultToken : TokenInfo :=
  ⟨[], [], [], [], [], [], [], [], [], [], 0, 0, 0⟩

/-- A raw token as returned by the external lindera tokenizer: the
surface string, the positional IPADIC `details()` vector, and the byte
offset `byte_start`.  The dictionary backend itself is outside the
repository; its output is universally quantified over. -/
structure RawToken where
  surface : Str
  details : List Str
  byte_start : Nat
deriving DecidableEq

/-- Body of the loop in `MorphologicalAnalyzer::tokenize`: build one
`TokenInfo` from a raw token and the running character offset, reading
the `details()` vector positionally with the documented fallbacks. -/
def mkTokenInfo (r : RawToken) (off : Nat) : TokenInfo where
  surface := r.surface
  pos := r.details.getD 0 "*".toList
  pos_detail1 := r.details.getD 1 "*".toList
  pos_detail2 := r.details.getD 2 "*".toList
  pos_detail3 := r.details.getD 3 "*".toList
  conjugation_type := r.details.getD 4 "*".toList
  conjugation_form := r.details.getD 5 "*".toList
  base_form := r.details.getD 6 r.surface
  reading := r.details.getD 7 []
  pronunciation := r.details.getD 8 []
  byte_offset := r.byte_start
  char_offset := off
  char_length := r.surface.length

/-- Loop of `MorphologicalAnalyzer::tokenize`: keep a running character
offset, advanced by each surface's code-point count. -/
def tokenizeGo : List RawToken → Nat → List TokenInfo
  | [], _ => []
  | r :: rest, off => mkTokenInfo r off :: tokenizeGo rest (off + r.surface.length)

/-- `MorphologicalAnalyzer::tokenize` applied to the raw tokens the
backing tokenizer returned for some input (an empty raw list models a
tokenization failure, which the Rust code maps to an empty vector). -/
def tokenize (raws : List RawToken) : List TokenInfo := tokenizeGo raws 0

/-- Diagnostic severity (the three values the checker emits). -/
inductive Severity where
  | error
  | warning
  | hint
deriving DecidableEq

/-- A zero-indexed line/column position (LSP `Position`). -/
structure Position where
  line : Nat
  character : Nat
deriving DecidableEq

/-- An LSP `Range`; the source's `end` field is called `stop` because
`end` is a Lean keyword. -/
structure Range where
  start : Position
  stop : Position
deriving DecidableEq

/-- A diagnostic as built by `checker.rs` (every construction site fills
`severity`, `code` and `source`, so they are modelled as plain fields). -/
structure Diagnostic where
  range : Range
  severity : Severity
  code : Str
  source : Str
  message : Str
deriving DecidableEq

/-- `GrammarChecker::token_to_range`: convert one token's character span
to a `Range` through the coordinate mapper. -/
def tokenToRange (token : TokenInfo) (lines : List Str) : Range :=
  let s := charOffsetToPosition lines token.char_offset
  let e := charOffsetToPosition lines (token.char_offset + token.char_length)
  ⟨⟨s.1, s.2⟩, ⟨e.1, e.2⟩⟩

/-- `GrammarChecker::tokens_to_range`: range from the first listed
token's start to the last listed token's end (callers always pass a
non-empty slice). -/
def tokensToRange (tokens : List TokenInfo) (lines : List Str) : Range :=
  let first := tokens.headD defaultToken
  let last := tokens.getLastD defaultToken
  let s := charOffsetToPosition lines first.char_offset
  let e := charOffsetToPosition lines (last.char_offset + last.char_length)
  ⟨⟨s.1, s.2⟩, ⟨e.1, e.2⟩⟩

/-- The nine particles `check_double_particle` looks for. -/
def targetParticles : List Str :=
  ["が".toList, "を".toList, "に".toList, "へ".toList, "で".toList,
   "と".toList, "から".toList, "まで".toList, "より".toList]

/-- `GrammarChecker::check_double_particle`: scan adjacent token pairs;
report when both are particles with the same surface drawn from
`targetParticles`. -/
def checkDoubleParticle (tokens : List TokenInfo) (lines : List Str) :
    List Diagnostic :=
  (List.range (tokens.length - 1)).filterMap fun i =>
    if (tokens.getD i defaultToken).pos = "助詞".toList
        ∧ (tokens.getD (i + 1) defaultToken).pos = "助詞".toList
        ∧ (tokens.getD i defaultToken).surface =
            (tokens.getD (i + 1) defaultToken).surface
        ∧ (tokens.getD i defaultToken).surface ∈ targetParticles then
      some
        { range := tokensToRange
            [tokens.getD i defaultToken, tokens.getD (i + 1) defaultToken] lines
          severity := Severity.error
          code := "double-particle".toList
          source := "mozuku".toList
          message := "助詞「".toList ++ (tokens.getD i defaultToken).surface
            ++ "」が重複しています。".toList }
    else none

/-- The double-particle detection predicate, written from the claim:
tokens `i` and `i+1` both have pos 助詞, identical surface, and that
surface is one of が, を, に, へ, で, と, から, まで, より. -/
def doubleParticleHit (tokens : List TokenInfo) (i : Nat) : Prop :=
  (tokens.getD i defaultToken).pos = "助詞".toList
  ∧ (tokens.getD (i + 1) defaultToken).pos = "助詞".toList
  ∧ (tokens.getD i defaultToken).surface =
      (tokens.getD (i + 1) defaultToken).surface
  ∧ (tokens.getD i defaultToken).surface ∈ targetParticles

instance (tokens : List TokenInfo) (i : Nat) :
    Decidable (doubleParticleHit tokens i) := by
  unfold doubleParticleHit
  infer_instance

/-- The diagnostic the claim specifies at a double-particle hit: code
"double-particle", severity Error, source "mozuku", range from token
`i`'s start to token `i+1`'s end (message as emitted by the rule). -/
def doubleParticleDiagAt (tokens : List TokenInfo) (lines : List Str)
    (i : Nat) : Diagnostic :=
  { range := tokensToRange
      [tokens.getD i defaultToken, tokens.getD (i + 1) defaultToken] lines
    severity := Severity.error
    code := "double-particle".toList
    source := "mozuku".toList
    message := "助詞「".toList ++ (tokens.getD i defaultToken).surface
      ++ "」が重複しています。".toList }

/-- `GrammarChecker::check_redundant_expression`: scan positions
`0 .. tokens.len().saturating_sub(3)`; at each, bind the token at `i+3`
as an `Option` (always present inside this index range), and report a
Hint when `t[i] = こと`, `t[i+1] = が` and `t[i+2]` is a できる/可能 form.
The ranges cover tokens `i` through `i+2` only. -/
def checkRedundantExpression (tokens : List TokenInfo) (lines : List Str) :
    List Diagnostic :=
  (List.range (tokens.length - 3)).filterMap fun i =>
    let t3 : Option TokenInfo :=
      if i + 3 < tokens.length then some (tokens.getD (i + 3) defaultToken)
      else none
    if (tokens.getD i defaultToken).surface = "こと".toList
        ∧ (tokens.getD (i + 1) defaultToken).surface = "が".toList then
      if t3.isSome then
        if (tokens.getD (i + 2) defaultToken).surface = "でき".toList
            ∨ (tokens.getD (i + 2) defaultToken).base_form = "できる".toList then
          some
            { range := tokensToRange
                [tokens.getD i defaultToken, tokens.getD (i + 1) defaultToken,
                  tokens.getD (i + 2) defaultToken] lines
              severity := Severity.hint
              code := "redundant-expression".toList
              source := "mozuku".toList
              message := "冗長な表現です。「〜ことができる」→「〜できる」".toList }
        else if (tokens.getD (i + 2) defaultToken).surface = "可能".toList then
          some
            { range := tokensToRange
                [tokens.getD i defaultToken, tokens.getD (i + 1) defaultToken,
                  tokens.getD (i + 2) defaultToken] lines
              severity := Severity.hint
              code := "redundant-expression".toList
              source := "mozuku".toList
              message := "冗長な表現です。「〜ことが可能」→「〜できる」".toList }
        else none
      else none
    else none

/-- The redundant-expression token pattern at `i`, written from the
claim (without the lookahead-existence guard): `t[i] = こと`,
`t[i+1] = が`, and `t[i+2]` is either the できる form (surface でき or
base form できる) or the surface 可能. -/
def redundantExpressionCore (tokens : List TokenInfo) (i : Nat) : Prop :=
  (tokens.getD i defaultToken).surface = "こと".toList
  ∧ (tokens.getD (i + 1) defaultToken).surface = "が".toList
  ∧ ((tokens.getD (i + 2) defaultToken).surface = "でき".toList
      ∨ (tokens.getD (i + 2) defaultToken).base_form = "できる".toList
      ∨ (tokens.getD (i + 2) defaultToken).surface = "可能".toList)

instance (tokens : List TokenInfo) (i : Nat) :
    Decidable (redundantExpressionCore tokens i) := by
  unfold redundantExpressionCore
  infer_instance

/-- The redundant-expression detection predicate, written from the
claim: a token at index `i+3` exists (the unused lookahead guard) and
the pattern of `redundantExpressionCore` matches; the token at `i+3` is
never inspected beyond its existence. -/
def redundantExpressionHit (tokens : List TokenInfo) (i : Nat) : Prop :=
  i + 3 < tokens.length ∧ redundantExpressionCore tokens i

instance (tokens : List TokenInfo) (i : Nat) :
    Decidable (redundantExpressionHit tokens i) := by
  unfold redundantExpressionHit
  infer_instance

/-- The diagnostic the claim specifies at a redundant-expression hit:
severity Hint, range covering tokens `i` through `i+2` only; the
「〜ことができる」 message when `t[i+2]` is the できる form, otherwise the
「〜ことが可能」 message. -/
def redundantExpressionDiagAt (tokens : List TokenInfo) (lines : List Str)
    (i : Nat) : Diagnostic :=
  { range := tokensToRange
      [tokens.getD i defaultToken, tokens.getD (i + 1) defaultToken,
        tokens.getD (i + 2) defaultToken] lines
    severity := Severity.hint
    code := "redundant-expression".toList
    source := "mozuku".toList
    message :=
      if (tokens.getD (i + 2) defaultToken).surface = "でき".toList
          ∨ (tokens.getD (i + 2) defaultToken).base_form = "できる".toList then
        "冗長な表現です。「〜ことができる」→「〜できる」".toList
      else "冗長な表現です。「〜ことが可能」→「〜できる」".toList }

/-- A prose span extracted from a document (`extractor.rs`,
`struct TextSpan`). -/
structure TextSpan where
  text : Str
  start_byte : Nat
  end_byte : Nat
  start_line : Nat
  start_col : Nat
  end_line : Nat
  end_col : Nat
deriving DecidableEq

/-- Span-to-document projection performed in
`MozukuServer::analyze_document` (`server.rs`): record the original
endpoint lines, add the span's start line to both endpoint lines, and add
the span's start column to an endpoint's column when that endpoint's
original line was 0. -/
def projectDiagnostic (span : TextSpan) (d : Diagnostic) : Diagnostic :=
  let origStartLine := d.range.start.line
  let origEndLine := d.range.stop.line
  { d with
    range :=
      { start :=
          { line := d.range.start.line + span.start_line
            character :=
              if origStartLine = 0 then d.range.start.character + span.start_col
              else d.range.start.character }
        stop :=
          { line := d.range.stop.line + span.start_line
            character :=
              if origEndLine = 0 then d.range.stop.character + span.start_col
              else d.range.stop.character } } }

/-- `TextExtractor::extract_plain_text` (`extractor.rs`): the empty
document yields no spans; otherwise one span covers the whole content,
with `end_col` taken from Rust `str::len` of the last line — a byte
count. -/
def extractPlainText (content : Str) : List TextSpan :=
  if content = [] then []
  else
    [⟨content, 0, byteLen content, 0, 0,
      (linesOf content).length - 1,
      byteLen ((linesOf content).getLastD [])⟩]

/-- `MorphologicalAnalyzer::format_token_info` (`analyzer.rs`): render
one token's morphological details as Markdown hover text. -/
def formatTokenInfo (token : TokenInfo) : Str :=
  "## ".toList ++ token.surface ++ "\n\n".toList
  ++ "**品詞**: ".toList ++ token.pos
  ++ (if ¬ token.pos_detail1 = "*".toList then
        "-".toList ++ token.pos_detail1 else [])
  ++ (if ¬ token.pos_detail2 = "*".toList then
        "-".toList ++ token.pos_detail2 else [])
  ++ (if ¬ token.pos_detail3 = "*".toList then
        "-".toList ++ token.pos_detail3 else [])
  ++ "\n".toList
  ++ (if ¬ token.base_form = "*".toList ∧ ¬ token.base_form = token.surface then
        "\n**基本形**: ".toList ++ token.base_form ++ "\n".toList else [])
  ++ (if ¬ token.conjugation_type = "*".toList then
        "**活用型**: ".toList ++ token.conjugation_type ++ "\n".toList else [])
  ++ (if ¬ token.conjugation_form = "*".toList then
        "**活用形**: ".toList ++ token.conjugation_form ++ "\n".toList else [])
  ++ (if ¬ token.reading = [] ∧ ¬ token.reading = "*".toList then
        "\n**読み**: ".toList ++ token.reading ++ "\n".toList else [])

/-- Character offset of a hover position: the code-point length of each
line before the position's line plus one per newline, plus the position's
column (the loop in `get_hover_info` after its bounds guard). -/
def hoverCharOffset (lines : List Str) (pos : Position) : Nat :=
  ((lines.take pos.line).map (fun l => l.length + 1)).sum + pos.character

/-- Linear search for the first token whose half-open character span
contains the offset. -/
def findHoverToken (tokens : List TokenInfo) (off : Nat) : Option Str :=
  match tokens with
  | [] => none
  | t :: rest =>
      if t.char_offset ≤ off ∧ off < t.char_offset + t.char_length then
        some (formatTokenInfo t)
      else findHoverToken rest off

/-- `MorphologicalAnalyzer::get_hover_info`: `tokens` stands for the
output of `self.tokenize(text)` (the backing tokenizer is external).
Returns `None` when the requested line is at or past the number of
lines; otherwise searches for the token containing the offset. -/
def getHoverInfo (tokens : List TokenInfo) (text : Str) (pos : Position) :
    Option Str :=
  if (linesOf text).length ≤ pos.line then none
  else findHoverToken tokens (hoverCharOffset (linesOf text) pos)

/-- Rust `str::replacen(pat, rep, 1)`: replace the first occurrence of
`pat` (returning the input unchanged when `pat` never occurs). -/
def replaceFirst (pat rep : Str) : Str → Str
  | [] => if pat.isPrefixOf [] then rep else []
  | c :: rest =>
      if pat.isPrefixOf (c :: rest) then rep ++ (c :: rest).drop pat.length
      else c :: replaceFirst pat rep rest

/-- `GrammarChecker::check_ra_nuki`: per token, pattern (a) a single
ichidan verb whose surface and base form end in れる (base not られる),
and pattern (b) the pair 連用形-ichidan verb + れる.  Both may fire at the
same index, in source order. -/
def checkRaNuki (tokens : List TokenInfo) (lines : List Str) :
    List Diagnostic :=
  (List.range tokens.length).flatMap fun i =>
    (if (tokens.getD i defaultToken).pos = "動詞".toList
        ∧ List.IsInfix "一段".toList (tokens.getD i defaultToken).conjugation_type
        ∧ List.IsSuffix "れる".toList (tokens.getD i defaultToken).surface then
      (if List.IsSuffix "れる".toList (tokens.getD i defaultToken).base_form
          ∧ ¬ List.IsSuffix "られる".toList (tokens.getD i defaultToken).base_form then
        [{ range := tokenToRange (tokens.getD i defaultToken) lines
           severity := Severity.warning
           code := "ra-nuki".toList
           source := "mozuku".toList
           message := "ら抜き言葉の可能性があります。「".toList
             ++ (tokens.getD i defaultToken).surface ++ "」→「".toList
             ++ replaceFirst "れる".toList "られる".toList
                  (tokens.getD i defaultToken).surface
             ++ "」".toList }]
      else [])
    else [])
    ++
    (if 0 < i ∧ (tokens.getD i defaultToken).surface = "れる".toList
        ∧ (tokens.getD i defaultToken).pos = "動詞".toList
        ∧ (tokens.getD (i - 1) defaultToken).pos = "動詞".toList
        ∧ List.IsInfix "一段".toList
            (tokens.getD (i - 1) defaultToken).conjugation_type
        ∧ List.IsInfix "連用形".toList
            (tokens.getD (i - 1) defaultToken).conjugation_form then
      [{ range := tokensToRange
           [tokens.getD (i - 1) defaultToken, tokens.getD i defaultToken] lines
         severity := Severity.warning
         code := "ra-nuki".toList
         source := "mozuku".toList
         message := "ら抜き言葉の可能性があります。「".toList
           ++ (tokens.getD (i - 1) defaultToken).surface
           ++ (tokens.getD i defaultToken).surface ++ "」→「".toList
           ++ (tokens.getD (i - 1) defaultToken).surface ++ "られる".toList
           ++ "」".toList }]
    else [])

/-- `GrammarChecker::check_i_nuki`: report the colloquial てる/でる
contraction after a verb. -/
def checkINuki (tokens : List TokenInfo) (lines : List Str) :
    List Diagnostic :=
  (List.range tokens.length).flatMap fun i =>
    (if 0 < i ∧ (tokens.getD i defaultToken).surface = "てる".toList
        ∧ (tokens.getD i defaultToken).pos = "助動詞".toList
        ∧ (tokens.getD (i - 1) defaultToken).pos = "動詞".toList then
      [{ range := tokenToRange (tokens.getD i defaultToken) lines
         severity := Severity.hint
         code := "i-nuki".toList
         source := "mozuku".toList
         message := "い抜き言葉です。「てる」→「ている」（口語では許容）".toList }]
    else [])
    ++
    (if 0 < i ∧ (tokens.getD i defaultToken).surface = "でる".toList
        ∧ (tokens.getD i defaultToken).pos = "助動詞".toList
        ∧ (tokens.getD (i - 1) defaultToken).pos = "動詞".toList then
      [{ range := tokenToRange (tokens.getD i defaultToken) lines
         severity := Severity.hint
         code := "i-nuki".toList
         source := "mozuku".toList
         message := "い抜き言葉です。「でる」→「でいる」（口語では許容）".toList }]
    else [])

/-- `GrammarChecker::check_redundant_na`: two consecutive な auxiliary
tokens. -/
def checkRedundantNa (tokens : List TokenInfo) (lines : List Str) :
    List Diagnostic :=
  (List.range (tokens.length - 1)).filterMap fun i =>
    if (tokens.getD i defaultToken).surface = "な".toList
        ∧ (tokens.getD (i + 1) defaultToken).surface = "な".toList
        ∧ (tokens.getD i defaultToken).pos = "助動詞".toList
        ∧ (tokens.getD (i + 1) defaultToken).pos = "助動詞".toList then
      some
        { range := tokensToRange
            [tokens.getD i defaultToken, tokens.getD (i + 1) defaultToken] lines
          severity := Severity.error
          code := "redundant-na".toList
          source := "mozuku".toList
          message := "「な」が重複しています。".toList }
    else none

/-- The honorific verb stems of `check_double_honorific`, paired with
their canonical forms. -/
def honorificStems : List (Str × Str) :=
  [("おっしゃ".toList, "おっしゃる".toList),
   ("いらっしゃ".toList, "いらっしゃる".toList),
   ("なさ".toList, "なさる".toList),
   ("くださ".toList, "くださる".toList),
   ("召し上が".toList, "召し上がる".toList)]

/-- `GrammarChecker::check_double_honorific`: (a) an honorific stem verb
followed by れ/られ (first matching stem wins, mirroring the inner loop's
`break`), then (b) the four-token ご〜 + に + なら/なり + れ/られ pattern. -/
def checkDoubleHonorific (tokens : List TokenInfo) (lines : List Str) :
    List Diagnostic :=
  ((List.range (tokens.length - 1)).filterMap fun i =>
    match honorificStems.find? (fun sc =>
        decide (List.IsPrefix sc.1 (tokens.getD i defaultToken).surface
          ∧ (tokens.getD i defaultToken).pos = "動詞".toList
          ∧ ((tokens.getD (i + 1) defaultToken).surface = "れ".toList
              ∨ (tokens.getD (i + 1) defaultToken).surface = "られ".toList)
          ∧ (tokens.getD (i + 1) defaultToken).pos = "動詞".toList)) with
    | some sc =>
        some
          { range := tokensToRange
              [tokens.getD i defaultToken, tokens.getD (i + 1) defaultToken]
              lines
            severity := Severity.warning
            code := "double-honorific".toList
            source := "mozuku".toList
            message := "二重敬語の可能性があります。「".toList
              ++ (tokens.getD i defaultToken).surface
              ++ (tokens.getD (i + 1) defaultToken).surface
              ++ "」→「".toList ++ sc.2 ++ "」".toList }
    | none => none)
  ++
  ((List.range (tokens.length - 3)).filterMap fun i =>
    if List.IsPrefix "ご".toList (tokens.getD i defaultToken).surface
        ∧ (tokens.getD (i + 1) defaultToken).surface = "に".toList
        ∧ ((tokens.getD (i + 2) defaultToken).surface = "なら".toList
            ∨ (tokens.getD (i + 2) defaultToken).surface = "なり".toList)
        ∧ ((tokens.getD (i + 3) defaultToken).surface = "れ".toList
            ∨ (tokens.getD (i + 3) defaultToken).surface = "られ".toList) then
      some
        { range := tokensToRange
            [tokens.getD i defaultToken, tokens.getD (i + 1) defaultToken,
              tokens.getD (i + 2) defaultToken, tokens.getD (i + 3) defaultToken]
            lines
          severity := Severity.warning
          code := "double-honorific".toList
          source := "mozuku".toList
          message := "二重敬語の可能性があります。「".toList
            ++ (tokens.getD i defaultToken).surface
            ++ (tokens.getD (i + 1) defaultToken).surface
            ++ (tokens.getD (i + 2) defaultToken).surface
            ++ (tokens.getD (i + 3) defaultToken).surface
            ++ "」→「".toList ++ (tokens.getD i defaultToken).surface
            ++ "になる」".toList }
    else none)

/-- `GrammarChecker::check_tari_parallel`: if exactly one たり token
exists, a verb follows it, and no later token is or ends in たり, warn at
the たり token. -/
def checkTariParallel (tokens : List TokenInfo) (lines : List Str) :
    List Diagnostic :=
  let tariPositions := (List.range tokens.length).filter fun i =>
    decide ((tokens.getD i defaultToken).surface = "たり".toList)
  if tariPositions.length = 1 then
    if (tokens.drop (tariPositions.headD 0 + 1)).any (fun t =>
          decide (t.pos = "動詞".toList
            ∧ ¬ List.IsSuffix "たり".toList t.surface))
        ∧ ¬ (tokens.drop (tariPositions.headD 0 + 1)).any (fun t =>
          decide (t.surface = "たり".toList
            ∨ List.IsSuffix "たり".toList t.surface)) then
      [{ range := tokenToRange (tokens.getD (tariPositions.headD 0) defaultToken)
           lines
         severity := Severity.warning
         code := "incomplete-tari".toList
         source := "mozuku".toList
         message := "「たり」を使う場合は「〜たり〜たりする」の形が適切です。".toList }]
    else []
  else []

/-- Helper of `check_consecutive_no`: the diagnostic spanning a run of
の tokens (`GrammarChecker::report_consecutive_no`). -/
def reportConsecutiveNo (noPositions : List TokenInfo) (lines : List Str) :
    Diagnostic :=
  let first := noPositions.headD defaultToken
  let last := noPositions.getLastD defaultToken
  let s := charOffsetToPosition lines first.char_offset
  let e := charOffsetToPosition lines (last.char_offset + last.char_length)
  { range := ⟨⟨s.1, s.2⟩, ⟨e.1, e.2⟩⟩
    severity := Severity.hint
    code := "consecutive-no".toList
    source := "mozuku".toList
    message := "「の」が".toList ++ (Nat.repr noPositions.length).toList
      ++ "回連続しています。読みやすさのため言い換えを検討してください。".toList }

/-- Whether the previous token (if any) is a noun — the Rust condition
`i > 0 && tokens[i - 1].pos == "名詞"`. -/
def prevIsNoun (prev : Option TokenInfo) : Bool :=
  match prev with
  | some p => decide (p.pos = "名詞".toList)
  | none => false

/-- The while-loop of `GrammarChecker::check_consecutive_no`, carrying
the previous token and the buffer of collected の tokens. -/
def cnLoop (lines : List Str) :
    List TokenInfo → Option TokenInfo → List TokenInfo → List Diagnostic
  | [], _, buf =>
      if 3 ≤ buf.length then [reportConsecutiveNo buf lines] else []
  | t :: rest, prev, buf =>
      if t.surface = "の".toList ∧ t.pos = "助詞".toList then
        if prevIsNoun prev then cnLoop lines rest (some t) (buf ++ [t])
        else
          (if 3 ≤ buf.length then [reportConsecutiveNo buf lines] else [])
            ++ cnLoop lines rest (some t) []
      else if ¬ t.pos = "名詞".toList ∧ ¬ buf = [] then
        (if 3 ≤ buf.length then [reportConsecutiveNo buf lines] else [])
          ++ cnLoop lines rest (some t) []
      else cnLoop lines rest (some t) buf

/-- `GrammarChecker::check_consecutive_no`. -/
def checkConsecutiveNo (tokens : List TokenInfo) (lines : List Str) :
    List Diagnostic :=
  cnLoop lines tokens none []

/-- Whitespace for the model of Rust `str::trim` (ASCII whitespace plus
the ideographic space; other exotic Unicode spaces are not modelled and
do not occur in the inputs considered). -/
def isWhitespaceChar (c : Char) : Bool :=
  decide (c = ' ' ∨ c = '\t' ∨ c = '\n' ∨ c = '\r' ∨ c = '　')

/-- Rust `str::trim`. -/
def trim (s : Str) : Str :=
  ((s.dropWhile isWhitespaceChar).reverse.dropWhile isWhitespaceChar).reverse

/-- The sentence-ending classifier of
`check_consecutive_sentence_endings`: first of です, ます, である, だ that
the trimmed sentence ends with, else empty. -/
def endingOf (trimmed : Str) : Str :=
  if List.IsSuffix "です".toList trimmed then "です".toList
  else if List.IsSuffix "ます".toList trimmed then "ます".toList
  else if List.IsSuffix "である".toList trimmed then "である".toList
  else if List.IsSuffix "だ".toList trimmed then "だ".toList
  else []

/-- The diagnostic `check_consecutive_sentence_endings` pushes when the
counter reaches three: position from the cumulative character count of
the first `i+1` (filtered) sentences plus one per 。, shifted back by 3. -/
def ceDiagAt (text : Str) (sentences : List Str) (i : Nat) (ending : Str)
    (count : Nat) : Diagnostic :=
  let charOff := ((sentences.take (i + 1)).map (fun s => s.length + 1)).sum
  let lc := charOffsetToPosition (linesOf text) (charOff - 3)
  { range := ⟨⟨lc.1, lc.2⟩, ⟨lc.1, lc.2 + 2⟩⟩
    severity := Severity.hint
    code := "consecutive-endings".toList
    source := "mozuku".toList
    message := "同じ文末「".toList ++ ending ++ "」が".toList
      ++ (Nat.repr count).toList
      ++ "回連続しています。文体の変化を検討してください。".toList }

/-- The sentence loop of `check_consecutive_sentence_endings`: carries
the index in the filtered sentence list, the consecutive counter and the
last ending.  A whitespace-only sentence is skipped without touching the
state; a sentence with no recognized ending resets the state; a repeated
ending increments the counter, and at 3 the diagnostic fires and the
counter (only) resets to 1. -/
def ceLoop (text : Str) (sentencesAll : List Str) :
    List Str → Nat → Nat → Str → List Diagnostic
  | [], _, _, _ => []
  | s :: rest, i, count, last =>
      if trim s = [] then ceLoop text sentencesAll rest (i + 1) count last
      else if endingOf (trim s) = [] then
        ceLoop text sentencesAll rest (i + 1) 1 []
      else if endingOf (trim s) = last then
        (if 3 ≤ count + 1 then
          ceDiagAt text sentencesAll i last (count + 1)
            :: ceLoop text sentencesAll rest (i + 1) 1 last
        else ceLoop text sentencesAll rest (i + 1) (count + 1) last)
      else
        (if 3 ≤ (1 : Nat) then
          ceDiagAt text sentencesAll i (endingOf (trim s)) 1
            :: ceLoop text sentencesAll rest (i + 1) 1 (endingOf (trim s))
        else ceLoop text sentencesAll rest (i + 1) 1 (endingOf (trim s)))

/-- `GrammarChecker::check_consecutive_sentence_endings`: split the raw
text on 。, drop empty pieces, return nothing for fewer than three
sentences, else run the counter loop. -/
def checkConsecutiveSentenceEndings (text : Str) : List Diagnostic :=
  if ((splitOnChar '。' text).filter fun s => !s.isEmpty).length < 3 then []
  else
    ceLoop text ((splitOnChar '。' text).filter fun s => !s.isEmpty)
      ((splitOnChar '。' text).filter fun s => !s.isEmpty) 0 1 []

/-- `GrammarChecker::check`: run every rule and concatenate, in source
order.  `tokens` stands for `self.analyzer.tokenize(text)` — the backing
tokenizer is external, and a tokenization failure yields `[]`. -/
def check (tokens : List TokenInfo) (text : Str) : List Diagnostic :=
  checkRaNuki tokens (linesOf text)
    ++ checkINuki tokens (linesOf text)
    ++ checkDoubleParticle tokens (linesOf text)
    ++ checkRedundantNa tokens (linesOf text)
    ++ checkDoubleHonorific tokens (linesOf text)
    ++ checkRedundantExpression tokens (linesOf text)
    ++ checkConsecutiveSentenceEndings text
    ++ checkTariParallel tokens (linesOf text)
    ++ checkConsecutiveNo tokens (linesOf text)

/-- An apostrophe character, written via its code point. -/
def apos : Char := Char.ofNat 39

/-- The Python triple-apostrophe docstring delimiter. -/
def tripleApos : Str := [apos, apos, apos]

/-- Rust `str::trim_start_matches(pat)`: repeatedly strip the prefix
`pat` while it matches (for non-empty `pat`). -/
def trimStartMatches (pat : Str) (s : Str) : Str :=
  if _h : ¬ pat = [] ∧ pat.isPrefixOf s then
    trimStartMatches pat (s.drop pat.length)
  else s
termination_by s.length
decreasing_by
  have hp : pat.length ≤ s.length :=
    (List.isPrefixOf_iff_prefix.mp _h.2).length_le
  have h1 : 1 ≤ pat.length := by
    cases hpat : pat with
    | nil => exact absurd hpat _h.1
    | cons a b => simp
  simp only [List.length_drop]
  omega

/-- Rust `str::trim_end_matches(pat)`, via reversal. -/
def trimEndMatches (pat : Str) (s : Str) : Str :=
  (trimStartMatches pat.reverse s.reverse).reverse

/-- Drop exactly `n` UTF-8 bytes from the front of a text; `none` when
`n` overruns the text or falls inside a character (a Rust byte-slice
panic). -/
def dropBytes : Str → Nat → Option Str
  | t, 0 => some t
  | [], _ + 1 => none
  | c :: rest, n + 1 =>
      if c.utf8Size ≤ n + 1 then dropBytes rest (n + 1 - c.utf8Size) else none

/-- Take exactly `n` UTF-8 bytes from the front of a text; `none` when
`n` overruns the text or falls inside a character. -/
def takeBytes : Str → Nat → Option Str
  | _, 0 => some []
  | [], _ + 1 => none
  | c :: rest, n + 1 =>
      if c.utf8Size ≤ n + 1 then
        (takeBytes rest (n + 1 - c.utf8Size)).map (fun r => c :: r)
      else none

/-- The Rust byte slice `&t[a..b]`: `none` models the panic cases —
`a > b` (inverted bounds), an out-of-range index, or an index not on a
character boundary. -/
def byteSlice (t : Str) (a b : Nat) : Option Str :=
  if a ≤ b then (dropBytes t a).bind fun r => takeBytes r (b - a)
  else none

/-- `TextExtractor::strip_comment_markers` (`extractor.rs`), with `none`
modelling a Rust panic.  Only the `"string"` branch slices by byte index
(`trimmed[3 .. len - 3]`); every other branch is a total
trim/trim-matches pipeline. -/
def stripCommentMarkers (text kind : Str) : Option Str :=
  if kind = "line_comment".toList then
    some (trim (trimStartMatches "//".toList
      (trimStartMatches "//!".toList (trimStartMatches "///".toList text))))
  else if kind = "block_comment".toList then
    some (trim (trimEndMatches "*/".toList
      (trimStartMatches "/*".toList
        (trimStartMatches "/*!".toList (trimStartMatches "/**".toList text)))))
  else if kind = "comment".toList then
    some (
      if List.IsPrefix "#".toList (trim text) then
        trim ((trim text).dropWhile fun a => decide (a = '#'))
      else if List.IsPrefix "//".toList (trim text) then
        trim (trimStartMatches "//".toList (trim text))
      else if List.IsPrefix "/*".toList (trim text) then
        trim (trimEndMatches "*/".toList
          (trimStartMatches "/*".toList (trim text)))
      else trim text)
  else if kind = "string".toList then
    if List.IsPrefix "\"\"\"".toList (trim text)
        ∨ List.IsPrefix tripleApos (trim text) then
      (byteSlice (trim text) 3 (byteLen (trim text) - 3)).map trim
    else some []
  else some text

/-- A document of `n` repetitions of the sentence です。. -/
def repeatDesu : Nat → Str
  | 0 => []
  | n + 1 => "です。".toList ++ repeatDesu n

theorem lineSpan_cons (l : Str) (ls : List Str) :
    lineSpan (l :: ls) = l.length + 1 + lineSpan ls := by
  simp [lineSpan]

theorem splitOnChar_ne_nil (sep : Char) (t : Str) : splitOnChar sep t ≠ [] := by
  induction t with
  | nil => simp [splitOnChar]
  | cons c rest ih =>
      simp only [splitOnChar]
      split
      · simp
      · split
        · simp
        · simp

theorem lineSpan_splitOnChar (sep : Char) (t : Str) :
    lineSpan (splitOnChar sep t) = t.length + 1 := by
  induction t with
  | nil => simp [splitOnChar, lineSpan]
  | cons c rest ih =>
      simp only [splitOnChar]
      split
      · rw [lineSpan_cons, ih]; simp; omega
      · split
        · next heq => exact absurd heq (splitOnChar_ne_nil sep rest)
        · next piece pieces heq =>
            rw [lineSpan_cons]
            have : lineSpan (splitOnChar sep rest) = rest.length + 1 := ih
            rw [heq, lineSpan_cons] at this
            simp only [List.length_cons]
            omega

theorem lineSpan_stripCrChunks (ls : List Str) :
    lineSpan (stripCrChunks ls) ≤ lineSpan ls := by
  induction ls with
  | nil => simp [stripCrChunks]
  | cons l rest ih =>
      rw [stripCrChunks, lineSpan_cons, lineSpan_cons]
      have hle : (if rest = [] then l else stripCr l).length ≤ l.length := by
        split
        · exact le_refl _
        · unfold stripCr
          split
          · simp [List.length_dropLast]
          · exact le_refl _
      omega

theorem lineSpan_dropLast_le (p : List Str) : lineSpan p.dropLast ≤ lineSpan p := by
  induction p with
  | nil => simp [lineSpan]
  | cons l rest ih =>
      cases rest with
      | nil => simp [lineSpan]
      | cons m ms =>
          show lineSpan (l :: (m :: ms).dropLast) ≤ lineSpan (l :: m :: ms)
          rw [lineSpan_cons, lineSpan_cons]
          omega

theorem lineSpan_dropTrailingEmpty_le (p : List Str) :
    lineSpan (dropTrailingEmpty p) ≤ lineSpan p := by
  unfold dropTrailingEmpty
  split
  · exact lineSpan_dropLast_le p
  · exact le_refl _

theorem lineSpan_linesOf_le (t : Str) : lineSpan (linesOf t) ≤ t.length + 1 := by
  unfold linesOf
  calc lineSpan (dropTrailingEmpty (stripCrChunks (splitOnChar '\n' t)))
      ≤ lineSpan (stripCrChunks (splitOnChar '\n' t)) :=
        lineSpan_dropTrailingEmpty_le _
    _ ≤ lineSpan (splitOnChar '\n' t) := lineSpan_stripCrChunks _
    _ = t.length + 1 := lineSpan_splitOnChar _ _

theorem cpGo_overflow (ls : List Str) (off cur n : Nat)
    (h : cur + lineSpan ls ≤ off) : cpGo ls off cur n = (0, 0) := by
  induction ls generalizing cur n with
  | nil => rfl
  | cons l rest ih =>
      rw [lineSpan_cons] at h
      rw [cpGo]
      rw [if_neg (by omega)]
      exact ih (cur + l.length + 1) (n + 1) (by omega)

theorem cpGo_last (ls : List Str) (cur n : Nat) (hne : ls ≠ []) :
    cpGo ls (cur + lineSpan ls - 1) cur n =
      (n + ls.length - 1, (ls.getLastD []).length) := by
  induction ls generalizing cur n with
  | nil => exact absurd rfl hne
  | cons l rest ih =>
      cases rest with
      | nil =>
          have h1 : cur + lineSpan [l] - 1 = cur + l.length := by
            simp [lineSpan]
          rw [h1, cpGo, if_pos (by omega)]
          have h2 : cur + l.length - cur = l.length := by omega
          simp [h2]
      | cons m ms =>
          have hspan : 1 ≤ lineSpan (m :: ms) := by rw [lineSpan_cons]; omega
          have harg : cur + lineSpan (l :: m :: ms) - 1 =
              cur + l.length + 1 + lineSpan (m :: ms) - 1 := by
            rw [lineSpan_cons]; omega
          rw [harg, cpGo, if_neg (by omega)]
          rw [ih (cur + l.length + 1) (n + 1) (by simp)]
          simp only [List.getLastD_cons, List.length_cons, Prod.mk.injEq]
          exact ⟨by omega, trivial⟩

theorem mem_of_getLast?_eq {α : Type} (l : List α) (a : α)
    (h : l.getLast? = some a) : a ∈ l := by
  induction l with
  | nil => simp at h
  | cons b rest ih =>
      cases rest with
      | nil =>
          simp at h
          subst h
          exact List.mem_cons_self _ _
      | cons m ms =>
          rw [List.getLast?_cons_cons] at h
          exact List.mem_cons_of_mem b (ih h)

theorem mem_of_mem_splitOnChar (sep : Char) (t : Str) :
    ∀ l ∈ splitOnChar sep t, ∀ c ∈ l, c ∈ t := by
  induction t with
  | nil =>
      intro l hl c hc
      simp [splitOnChar] at hl
      subst hl
      simp at hc
  | cons a rest ih =>
      intro l hl c hc
      rw [splitOnChar] at hl
      by_cases ha : a = sep
      · rw [if_pos ha] at hl
        rcases List.mem_cons.mp hl with h | h
        · subst h; simp at hc
        · exact List.mem_cons_of_mem a (ih l h c hc)
      · rw [if_neg ha] at hl
        rcases hr : splitOnChar sep rest with _ | ⟨piece, pieces⟩
        · exact absurd hr (splitOnChar_ne_nil sep rest)
        · rw [hr] at hl
          rcases List.mem_cons.mp hl with h | h
          · subst h
            rcases List.mem_cons.mp hc with h | h
            · subst h; exact List.mem_cons_self _ _
            · refine List.mem_cons_of_mem a (ih piece ?_ c h)
              rw [hr]; exact List.mem_cons_self _ _
          · refine List.mem_cons_of_mem a (ih l ?_ c hc)
            rw [hr]; exact List.mem_cons_of_mem piece h

theorem stripCrChunks_eq_self (p : List Str) (h : ∀ l ∈ p, '\r' ∉ l) :
    stripCrChunks p = p := by
  induction p with
  | nil => rfl
  | cons l rest ih =>
      rw [stripCrChunks]
      have hcr : stripCr l = l := by
        unfold stripCr
        split
        · next hl =>
            exact absurd (mem_of_getLast?_eq l '\r' hl) (h l (List.mem_cons_self _ _))
        · rfl
      rw [ih (fun m hm => h m (List.mem_cons_of_mem l hm))]
      split
      · rfl
      · rw [hcr]

theorem splitOnChar_getLastD_ne_nil (t : Str) (hne : t ≠ [])
    (hlast : t.getLast? ≠ some '\n') :
    (splitOnChar '\n' t).getLastD [] ≠ [] := by
  induction t with
  | nil => exact absurd rfl hne
  | cons c rest ih =>
      rw [splitOnChar]
      cases rest with
      | nil =>
          have hc : ¬ c = '\n' := by
            intro h; exact hlast (by simp [h])
          rw [if_neg hc]
          simp [splitOnChar]
      | cons m ms =>
          have hlast2 : (m :: ms).getLast? ≠ some '\n' := by
            rwa [List.getLast?_cons_cons] at hlast
          have ihr := ih (by simp) hlast2
          by_cases hc : c = '\n'
          · rw [if_pos hc]
            rcases hr : splitOnChar '\n' (m :: ms) with _ | ⟨piece, pieces⟩
            · exact absurd hr (splitOnChar_ne_nil '\n' (m :: ms))
            · rw [hr] at ihr
              rw [List.getLastD_cons]
              exact ihr
          · rw [if_neg hc]
            rcases hr : splitOnChar '\n' (m :: ms) with _ | ⟨piece, pieces⟩
            · exact absurd hr (splitOnChar_ne_nil '\n' (m :: ms))
            · rw [hr] at ihr
              cases pieces with
              | nil => simp
              | cons q qs =>
                  rw [List.getLastD_cons, List.getLastD_cons] at ihr ⊢
                  exact ihr

theorem endOfTextPos_splitOnChar (t : Str) :
    endOfTextPos t = ((splitOnChar '\n' t).length - 1,
      ((splitOnChar '\n' t).getLastD []).length) := by
  induction t with
  | nil => simp [endOfTextPos, splitOnChar]
  | cons c rest ih =>
      by_cases hc : c = '\n'
      · rw [endOfTextPos, splitOnChar, if_pos hc, if_pos hc]
        rcases hr : splitOnChar '\n' rest with _ | ⟨piece, pieces⟩
        · exact absurd hr (splitOnChar_ne_nil '\n' rest)
        · rw [hr] at ih
          rw [ih]
          simp only [List.length_cons, List.getLastD_cons, Prod.mk.injEq]
          exact ⟨by omega, trivial⟩
      · rw [endOfTextPos, splitOnChar, if_neg hc, if_neg hc]
        rcases hr : splitOnChar '\n' rest with _ | ⟨piece, pieces⟩
        · exact absurd hr (splitOnChar_ne_nil '\n' rest)
        · rw [hr] at ih
          rw [ih]
          cases pieces with
          | nil => simp
          | cons q qs =>
              simp only [List.length_cons, List.getLastD_cons]
              have h1 : ¬ (qs.length + 1 + 1 - 1 = 0) := by omega
              rw [if_neg h1]

theorem linesOf_of_clean (t : Str) (hne : t ≠ [])
    (hr : '\r' ∉ t) (hlast : t.getLast? ≠ some '\n') :
    linesOf t = splitOnChar '\n' t := by
  unfold linesOf
  rw [stripCrChunks_eq_self _
    (fun l hl hc => hr (mem_of_mem_splitOnChar '\n' t l hl '\r' hc))]
  unfold dropTrailingEmpty
  split
  · next hsome =>
      exfalso
      apply splitOnChar_getLastD_ne_nil t hne hlast
      rw [List.getLastD_eq_getLast?, hsome]
      rfl
  · rfl

theorem tokenizeGo_length (raws : List RawToken) (off : Nat) :
    (tokenizeGo raws off).length = raws.length := by
  induction raws generalizing off with
  | nil => rfl
  | cons r rest ih => simp [tokenizeGo, ih]

theorem tokenizeGo_headD (raws : List RawToken) (off : Nat) (h : raws ≠ []) :
    ((tokenizeGo raws off).headD defaultToken).char_offset = off := by
  cases raws with
  | nil => exact absurd rfl h
  | cons r rest => rfl

theorem tokenizeGo_adjacent (raws : List RawToken) (off : Nat) (i : Nat)
    (h : i + 1 < (tokenizeGo raws off).length) :
    ((tokenizeGo raws off).getD (i + 1) defaultToken).char_offset =
      ((tokenizeGo raws off).getD i defaultToken).char_offset +
      ((tokenizeGo raws off).getD i defaultToken).char_length := by
  induction raws generalizing off i with
  | nil => simp [tokenizeGo] at h
  | cons r rest ih =>
      cases i with
      | zero =>
          cases rest with
          | nil => simp [tokenizeGo, tokenizeGo_length] at h
          | cons s srest =>
              show ((tokenizeGo (s :: srest) (off + r.surface.length)).getD 0
                  defaultToken).char_offset = _
              rfl
      | succ j =>
          have h2 : j + 1 < (tokenizeGo rest (off + r.surface.length)).length := by
            simp only [tokenizeGo, List.length_cons] at h
            omega
          show ((tokenizeGo rest (off + r.surface.length)).getD (j + 1)
              defaultToken).char_offset = _
          exact ih (off + r.surface.length) j h2

theorem tokenizeGo_char_length (raws : List RawToken) (off : Nat) :
    ∀ t ∈ tokenizeGo raws off, t.char_length = t.surface.length := by
  induction raws generalizing off with
  | nil => intro t ht; simp [tokenizeGo] at ht
  | cons r rest ih =>
      intro t ht
      rcases List.mem_cons.mp ht with h | h
      · subst h; rfl
      · exact ih (off + r.surface.length) t h

/-- C4.  `MorphologicalAnalyzer::tokenize`: for every raw token sequence
the backing tokenizer may return, the produced `TokenInfo` sequence has
its first token at `char_offset` 0, every token's `char_length` equal to
the code-point count of its `surface`, and adjacent tokens satisfying
`tokens[i+1].char_offset = tokens[i].char_offset + tokens[i].char_length`. -/
theorem c4_tokenize_offsets (raws : List RawToken) :
    (∀ t ∈ tokenize raws, t.char_length = t.surface.length)
    ∧ (tokenize raws ≠ [] →
        ((tokenize raws).headD defaultToken).char_offset = 0)
    ∧ (∀ i, i + 1 < (tokenize raws).length →
        ((tokenize raws).getD (i + 1) defaultToken).char_offset =
          ((tokenize raws).getD i defaultToken).char_offset +
          ((tokenize raws).getD i defaultToken).char_length) := by
  refine ⟨tokenizeGo_char_length raws 0, fun h => ?_,
    fun i h => tokenizeGo_adjacent raws 0 i h⟩
  apply tokenizeGo_headD
  intro hnil
  exact h (by rw [tokenize, hnil]; rfl)

/-- Witness for C4 on a concrete two-token raw sequence. -/
theorem c4_witness :
    ((tokenize [⟨"私".toList, [], 0⟩, ⟨"です".toList, [], 3⟩]).headD
        defaultToken).char_offset = 0
    ∧ ((tokenize [⟨"私".toList, [], 0⟩, ⟨"です".toList, [], 3⟩]).getD 1
          defaultToken).char_offset =
        ((tokenize [⟨"私".toList, [], 0⟩, ⟨"です".toList, [], 3⟩]).getD 0
          defaultToken).char_offset +
        ((tokenize [⟨"私".toList, [], 0⟩, ⟨"です".toList, [], 3⟩]).getD 0
          defaultToken).char_length :=
  ⟨(c4_tokenize_offsets [⟨"私".toList, [], 0⟩, ⟨"です".toList, [], 3⟩]).2.1
      (by decide),
   (c4_tokenize_offsets [⟨"私".toList, [], 0⟩, ⟨"です".toList, [], 3⟩]).2.2 0
      (by decide)⟩

theorem filterMap_if_eq_map_filter {α β : Type} (p : α → Prop)
    [DecidablePred p] (f : α → β) (l : List α) :
    (l.filterMap fun a => if p a then some (f a) else none) =
      (l.filter fun a => decide (p a)).map f := by
  induction l with
  | nil => rfl
  | cons a rest ih =>
      by_cases h : p a
      · simp [List.filterMap_cons, List.filter_cons, h, ih]
      · simp [List.filterMap_cons, List.filter_cons, h, ih]

theorem filter_range_guard (n k : Nat) (q : Nat → Bool) :
    ((List.range n).filter fun i => decide (i + k < n) && q i) =
      (List.range (n - k)).filter q := by
  by_cases hk : k ≤ n
  · obtain ⟨m, rfl⟩ : ∃ m, n = m + k := ⟨n - k, by omega⟩
    have hm : m + k - k = m := by omega
    rw [hm, List.range_add, List.filter_append]
    have h1 : ((List.range m).filter
        fun i => decide (i + k < m + k) && q i) =
        (List.range m).filter q := by
      apply List.filter_congr
      intro i hi
      have hlt : i + k < m + k := by
        have := List.mem_range.mp hi
        omega
      simp [hlt]
    have h2 : (((List.range k).map fun x => m + x).filter
        fun i => decide (i + k < m + k) && q i) = [] := by
      rw [List.filter_map]
      have hinner : (List.range k).filter
          ((fun i => decide (i + k < m + k) && q i) ∘ fun x => m + x) = [] := by
        apply List.filter_eq_nil_iff.mpr
        intro j _
        simp only [Function.comp_apply]
        have hge : ¬ (m + j + k < m + k) := by omega
        simp [hge]
      rw [hinner]
      rfl
    rw [h1, h2, List.append_nil]
  · have h0 : n - k = 0 := by omega
    rw [h0]
    apply List.filter_eq_nil_iff.mpr
    intro i hi
    have hge : ¬ (i + k < n) := by omega
    simp [hge]

/-- C5.  `GrammarChecker::check_double_particle` emits, in index order,
exactly one diagnostic per position `i` at which tokens `i` and `i+1`
both have pos 助詞, identical surface, and that surface is one of the
nine target particles; each diagnostic has code "double-particle",
severity Error, source "mozuku", and a range running from token `i`'s
start to token `i+1`'s end. -/
theorem c5_double_particle (tokens : List TokenInfo) (lines : List Str) :
    checkDoubleParticle tokens lines =
      ((List.range tokens.length).filter fun i =>
          decide (i + 1 < tokens.length ∧ doubleParticleHit tokens i)).map
        (doubleParticleDiagAt tokens lines) := by
  have h1 : checkDoubleParticle tokens lines =
      ((List.range (tokens.length - 1)).filter fun i =>
        decide (doubleParticleHit tokens i)).map
        (doubleParticleDiagAt tokens lines) :=
    filterMap_if_eq_map_filter (doubleParticleHit tokens)
      (doubleParticleDiagAt tokens lines) (List.range (tokens.length - 1))
  rw [h1, ← filter_range_guard tokens.length 1
    (fun i => decide (doubleParticleHit tokens i))]
  congr 1
  apply List.filter_congr
  intro i _
  simp [Bool.decide_and]

/-- C6.  `GrammarChecker::check_redundant_expression` fires at position
`i` exactly when a token at index `i+3` exists, `t[i].surface = こと`,
`t[i+1].surface = が`, and `t[i+2]` matches either the できる form
(yielding the 「〜ことができる」 message) or otherwise 可能 (yielding the
「〜ことが可能」 message); each diagnostic has severity Hint with a range
covering tokens `i` through `i+2` only, and the token at `i+3` is never
inspected beyond its existence. -/
theorem c6_redundant_expression (tokens : List TokenInfo) (lines : List Str) :
    checkRedundantExpression tokens lines =
      ((List.range tokens.length).filter fun i =>
          decide (redundantExpressionHit tokens i)).map
        (redundantExpressionDiagAt tokens lines) := by
  have h1 : checkRedundantExpression tokens lines =
      (List.range (tokens.length - 3)).filterMap fun i =>
        if redundantExpressionHit tokens i then
          some (redundantExpressionDiagAt tokens lines i)
        else none := by
    unfold checkRedundantExpression
    apply List.filterMap_congr
    intro i hi
    have hg : i + 3 < tokens.length := by
      have := List.mem_range.mp hi
      omega
    simp only [hg, if_true, Option.isSome_some]
    by_cases hkoto : (tokens.getD i defaultToken).surface = "こと".toList
        ∧ (tokens.getD (i + 1) defaultToken).surface = "が".toList
    · rw [if_pos hkoto]
      by_cases hA : (tokens.getD (i + 2) defaultToken).surface = "でき".toList
          ∨ (tokens.getD (i + 2) defaultToken).base_form = "できる".toList
      · rw [if_pos hA,
          if_pos ⟨hg, hkoto.1, hkoto.2,
            hA.elim Or.inl (fun h => Or.inr (Or.inl h))⟩]
        unfold redundantExpressionDiagAt
        rw [if_pos hA]
      · rw [if_neg hA]
        by_cases hK : (tokens.getD (i + 2) defaultToken).surface = "可能".toList
        · rw [if_pos hK,
            if_pos ⟨hg, hkoto.1, hkoto.2, Or.inr (Or.inr hK)⟩]
          unfold redundantExpressionDiagAt
          rw [if_neg hA]
        · rw [if_neg hK, if_neg ?hmiss]
          case hmiss =>
            rintro ⟨-, -, -, hor⟩
            rcases hor with h | h | h
            · exact hA (Or.inl h)
            · exact hA (Or.inr h)
            · exact hK h
    · rw [if_neg hkoto, if_neg ?hmiss2]
      case hmiss2 =>
        rintro ⟨-, h1, h2, -⟩
        exact hkoto ⟨h1, h2⟩
  rw [h1, filterMap_if_eq_map_filter (redundantExpressionHit tokens)
    (redundantExpressionDiagAt tokens lines)]
  congr 1
  have h2 : ((List.range (tokens.length - 3)).filter fun i =>
      decide (redundantExpressionHit tokens i)) =
      ((List.range (tokens.length - 3)).filter fun i =>
        decide (redundantExpressionCore tokens i)) := by
    apply List.filter_congr
    intro i hi
    have hg : i + 3 < tokens.length := by
      have := List.mem_range.mp hi
      omega
    simp [redundantExpressionHit, hg]
  rw [h2, ← filter_range_guard tokens.length 3
    (fun i => decide (redundantExpressionCore tokens i))]
  apply List.filter_congr
  intro i _
  simp [redundantExpressionHit, Bool.decide_and]

/-- C3.  The diagnostics projector adds `span.start_line` to both
endpoint lines, and adds `span.start_col` to an endpoint's column exactly
when that endpoint's original line was 0; in particular a span-local
range `((0, a), (0, b))` projects to `((L, C+a), (L, C+b))` for a span
starting at `(L, C)`. -/
theorem c3_projection (span : TextSpan) (d : Diagnostic) :
    ((projectDiagnostic span d).range.start.line =
        d.range.start.line + span.start_line
      ∧ (projectDiagnostic span d).range.stop.line =
        d.range.stop.line + span.start_line
      ∧ (projectDiagnostic span d).range.start.character =
        d.range.start.character +
          (if d.range.start.line = 0 then span.start_col else 0)
      ∧ (projectDiagnostic span d).range.stop.character =
        d.range.stop.character +
          (if d.range.stop.line = 0 then span.start_col else 0))
    ∧ ∀ (a b : Nat) (sev : Severity) (cod src msg : Str),
        (projectDiagnostic span
            { range := ⟨⟨0, a⟩, ⟨0, b⟩⟩, severity := sev, code := cod,
              source := src, message := msg }).range =
          ⟨⟨span.start_line, span.start_col + a⟩,
            ⟨span.start_line, span.start_col + b⟩⟩ := by
  constructor
  · refine ⟨rfl, rfl, ?_, ?_⟩
    · by_cases h : d.range.start.line = 0
      · simp [projectDiagnostic, h]
      · simp [projectDiagnostic, h]
    · by_cases h : d.range.stop.line = 0
      · simp [projectDiagnostic, h]
      · simp [projectDiagnostic, h]
  · intro a b sev cod src msg
    simp [projectDiagnostic, Nat.add_comm]

/-- C7 (amended).  `extract_plain_text` returns an empty list for empty
content, and otherwise exactly one span whose text is the whole content,
whose byte bounds are `0 .. byteLen content`, whose start is `(0, 0)`,
whose `end_line` is the last line's index, and whose `end_col` is the
last line's length in UTF-8 bytes — not in code points as the claim
states (see the counterexample). -/
theorem c7_extract_plain_text (content : Str) :
    (content ≠ [] →
      (extractPlainText content).length = 1
      ∧ ((extractPlainText content).headD ⟨[], 0, 0, 0, 0, 0, 0⟩).text = content
      ∧ ((extractPlainText content).headD ⟨[], 0, 0, 0, 0, 0, 0⟩).start_byte = 0
      ∧ ((extractPlainText content).headD ⟨[], 0, 0, 0, 0, 0, 0⟩).end_byte =
          byteLen content
      ∧ ((extractPlainText content).headD ⟨[], 0, 0, 0, 0, 0, 0⟩).start_line = 0
      ∧ ((extractPlainText content).headD ⟨[], 0, 0, 0, 0, 0, 0⟩).start_col = 0
      ∧ ((extractPlainText content).headD ⟨[], 0, 0, 0, 0, 0, 0⟩).end_line =
          (linesOf content).length - 1
      ∧ ((extractPlainText content).headD ⟨[], 0, 0, 0, 0, 0, 0⟩).end_col =
          byteLen ((linesOf content).getLastD []))
    ∧ extractPlainText [] = [] := by
  constructor
  · intro h
    rw [extractPlainText, if_neg h]
    exact ⟨rfl, rfl, rfl, rfl, rfl, rfl, rfl, rfl⟩
  · rfl

/-- Witness for C7 on a concrete non-empty document. -/
theorem c7_witness :
    (extractPlainText "これはテストです。".toList).length = 1
    ∧ ((extractPlainText "これはテストです。".toList).headD
        ⟨[], 0, 0, 0, 0, 0, 0⟩).text = "これはテストです。".toList :=
  ⟨((c7_extract_plain_text "これはテストです。".toList).1 (by decide)).1,
   ((c7_extract_plain_text "これはテストです。".toList).1 (by decide)).2.1⟩

/-- C7 counterexample: for content `"あ"`, the emitted span's `end_col`
is 3 (the UTF-8 byte length of the one-line content), while the last
line's length in code points is 1, so the end position is not the
code-point position of the end of text. -/
theorem c7_counterexample :
    ((extractPlainText "あ".toList).headD ⟨[], 0, 0, 0, 0, 0, 0⟩).end_col = 3
    ∧ ((linesOf "あ".toList).getLastD []).length = 1
    ∧ (3 : Nat) ≠ 1 := by
  refine ⟨by decide, by decide, by decide⟩

/-- C10.  `get_hover_info` returns `None` for every position whose line
number is at least the number of lines in the text, regardless of the
token sequence — no clamping, no hover text. -/
theorem c10_hover_out_of_range (tokens : List TokenInfo) (text : Str)
    (pos : Position) (h : (linesOf text).length ≤ pos.line) :
    getHoverInfo tokens text pos = none := by
  rw [getHoverInfo, if_pos h]

/-- Witness for C10 at a concrete document and position. -/
theorem c10_witness :
    getHoverInfo [] "一行目\n二行目".toList ⟨5, 0⟩ = none :=
  c10_hover_out_of_range [] "一行目\n二行目".toList ⟨5, 0⟩ (by decide)

/-- C2.  `char_offset_to_position` (in both `checker.rs` and
`analyzer.rs`): for an offset strictly greater than the document's
code-point length it returns `(0, 0)`; for an offset equal to the
document's length it returns the line/column of the end of text —
provided the document contains no carriage return and does not end with a
newline.  (The claim's first half fails for documents ending in `\n`; see
the counterexample.) -/
theorem c2_char_offset_to_position (t : Str) (off : Nat) :
    ('\r' ∉ t → t.getLast? ≠ some '\n' → off = t.length →
      charOffsetToPosition (linesOf t) off = endOfTextPos t)
    ∧ (t.length < off → charOffsetToPosition (linesOf t) off = (0, 0)) := by
  constructor
  · intro hr hlast hoff
    cases t with
    | nil => subst hoff; rfl
    | cons a rest =>
        have hne : a :: rest ≠ [] := by simp
        rw [linesOf_of_clean _ hne hr hlast]
        have hspan := lineSpan_splitOnChar '\n' (a :: rest)
        have harg : off = 0 + lineSpan (splitOnChar '\n' (a :: rest)) - 1 := by
          omega
        rw [harg]
        unfold charOffsetToPosition
        rw [cpGo_last _ 0 0 (splitOnChar_ne_nil '\n' _)]
        rw [endOfTextPos_splitOnChar]
        simp
  · intro hlt
    unfold charOffsetToPosition
    apply cpGo_overflow
    have := lineSpan_linesOf_le t
    omega

/-- Witness for C2 at a concrete two-line document. -/
theorem c2_witness :
    charOffsetToPosition (linesOf "ab\ncd".toList) 5 = endOfTextPos "ab\ncd".toList
    ∧ charOffsetToPosition (linesOf "ab\ncd".toList) 9 = (0, 0) :=
  ⟨(c2_char_offset_to_position "ab\ncd".toList 5).1 (by decide) (by decide) (by decide),
   (c2_char_offset_to_position "ab\ncd".toList 9).2 (by decide)⟩

/-- C2 counterexample: for the document `"a\n"`, the offset equal to the
document's length (2 code points) falls through to the `(0, 0)` default,
which is not the position of the end of text (line 1, column 0). -/
theorem c2_counterexample :
    charOffsetToPosition (linesOf "a\n".toList) ("a\n".toList).length = (0, 0)
    ∧ endOfTextPos "a\n".toList = (1, 0)
    ∧ ((0, 0) : Nat × Nat) ≠ (1, 0) := by
  refine ⟨by decide, by decide, by decide⟩

/-- C1 (amended).  When the tokenizer returns an empty token sequence,
every token-based rule yields no diagnostics and `check` returns exactly
the output of the raw-text consecutive-endings rule — which can still be
non-empty (see the counterexample), so the diagnostic list is not always
empty. -/
theorem c1_check_empty_tokens (text : Str) :
    check [] text = checkConsecutiveSentenceEndings text := by
  simp [check, checkRaNuki, checkINuki, checkDoubleParticle, checkRedundantNa,
    checkDoubleHonorific, checkRedundantExpression, checkTariParallel,
    checkConsecutiveNo, cnLoop]

/-- C1 counterexample: on the document です。です。です。 with an empty
token sequence, `check` still emits a (consecutive-endings) diagnostic,
so the diagnostic list is not empty. -/
theorem c1_counterexample :
    check [] "です。です。です。".toList ≠ [] := by decide

theorem splitOnChar_repeatDesu (n : Nat) :
    splitOnChar '。' (repeatDesu n) =
      List.replicate n "です".toList ++ [[]] := by
  induction n with
  | zero => rfl
  | succ m ih =>
      have hstep : splitOnChar '。' (repeatDesu (m + 1))
          = "です".toList :: splitOnChar '。' (repeatDesu m) := rfl
      rw [hstep, ih]
      simp [List.replicate_succ]

theorem filter_sentences_repeatDesu (n : Nat) :
    ((splitOnChar '。' (repeatDesu n)).filter fun s => !s.isEmpty)
      = List.replicate n "です".toList := by
  rw [splitOnChar_repeatDesu, List.filter_append]
  have h1 : ((List.replicate n "です".toList).filter fun s => !s.isEmpty)
      = List.replicate n "です".toList := by
    apply List.filter_eq_self.mpr
    intro a ha
    rw [List.eq_of_mem_replicate ha]
    rfl
  have h2 : (([[]] : List Str).filter fun s => !s.isEmpty) = [] := rfl
  rw [h1, h2, List.append_nil]

theorem ceLoop_desu_fresh (text : Str) (all rest : List Str) (i c : Nat) :
    ceLoop text all ("です".toList :: rest) i c []
      = ceLoop text all rest (i + 1) 1 "です".toList := rfl

theorem ceLoop_desu_inc (text : Str) (all rest : List Str) (i : Nat) :
    ceLoop text all ("です".toList :: rest) i 1 "です".toList
      = ceLoop text all rest (i + 1) 2 "です".toList := rfl

theorem ceLoop_desu_fire (text : Str) (all rest : List Str) (i : Nat) :
    ceLoop text all ("です".toList :: rest) i 2 "です".toList
      = ceDiagAt text all i "です".toList 3
          :: ceLoop text all rest (i + 1) 1 "です".toList := rfl

theorem ceLoop_replicate_desu_length (text : Str) (all : List Str) :
    ∀ (k i c : Nat), c = 1 ∨ c = 2 →
      (ceLoop text all (List.replicate k "です".toList) i c
        "です".toList).length = (k + c - 1) / 2 := by
  intro k
  induction k with
  | zero =>
      intro i c hc
      rcases hc with h | h <;> subst h <;> rfl
  | succ m ih =>
      intro i c hc
      rw [List.replicate_succ]
      rcases hc with h | h
      · subst h
        rw [ceLoop_desu_inc, ih (i + 1) 2 (Or.inr rfl)]
      · subst h
        rw [ceLoop_desu_fire]
        simp only [List.length_cons]
        rw [ih (i + 1) 1 (Or.inl rfl)]
        omega

theorem ceLoop_wf (text : Str) (all : List Str) :
    ∀ (rem : List Str) (i c : Nat) (last : Str),
      ((ceLoop text all rem i c last).all fun d =>
        decide (d.code = "consecutive-endings".toList
          ∧ d.severity = Severity.hint ∧ d.source = "mozuku".toList)) = true := by
  intro rem
  induction rem with
  | nil => intro i c last; rfl
  | cons s rest ih =>
      intro i c last
      rw [ceLoop]
      split
      · exact ih (i + 1) c last
      · split
        · exact ih (i + 1) 1 []
        · split
          · split
            · rw [List.all_cons, ih (i + 1) 1 last, Bool.and_true]
              rfl
            · exact ih (i + 1) (c + 1) last
          · split
            · rw [List.all_cons, ih (i + 1) 1 (endingOf (trim s)), Bool.and_true]
              rfl
            · exact ih (i + 1) 1 (endingOf (trim s))

/-- C8 (amended).  The consecutive-endings rule splits on 。, classifies
each non-empty sentence's ending, and fires a Hint diagnostic with code
"consecutive-endings" whenever the consecutive counter reaches three.
After firing, only the counter resets (the last ending is kept), so an
uninterrupted run of `n ≥ 3` same-ending sentences produces
`(n - 1) / 2` diagnostics — fewer than one per excess sentence, but more
than one for runs of five or more (see the counterexample). -/
theorem c8_consecutive_endings (n : Nat) :
    (checkConsecutiveSentenceEndings (repeatDesu n)).length
        = (if n < 3 then 0 else (n - 1) / 2)
    ∧ ((checkConsecutiveSentenceEndings (repeatDesu n)).all fun d =>
        decide (d.code = "consecutive-endings".toList
          ∧ d.severity = Severity.hint
          ∧ d.source = "mozuku".toList)) = true := by
  constructor
  · rw [checkConsecutiveSentenceEndings, filter_sentences_repeatDesu,
      List.length_replicate]
    by_cases h3 : n < 3
    · rw [if_pos h3, if_pos h3]
      rfl
    · rw [if_neg h3, if_neg h3]
      obtain ⟨m, rfl⟩ : ∃ m, n = m + 1 := ⟨n - 1, by omega⟩
      rw [List.replicate_succ, ceLoop_desu_fresh,
        ceLoop_replicate_desu_length _ _ m 1 1 (Or.inl rfl)]
  · rw [checkConsecutiveSentenceEndings]
    split
    · rfl
    · exact ceLoop_wf _ _ _ 0 1 []

/-- C8 counterexample: a single uninterrupted run of five です-ending
sentences produces two consecutive-endings diagnostics, not one. -/
theorem c8_counterexample :
    (checkConsecutiveSentenceEndings (repeatDesu 5)).length = 2
    ∧ (2 : Nat) ≠ 1 :=
  ⟨by decide, by decide⟩

/-- C9.  In the `"string"` branch of `strip_comment_markers`, the byte
slice `trimmed[3 .. len - 3]` has inverted bounds for the three-byte
text `"\"\"\""` (a bare triple quote), so the Rust code panics there —
modelled by the `none` result — contradicting the claim that the
function returns without panicking on texts of fewer than six bytes. -/
theorem c9_strip_string_marker_panics :
    stripCommentMarkers "\"\"\"".toList "string".toList = none := by decide

end Mozuku
